import Mathlib

/-!
Verification development for the Twap-Trading-API repository.

The Python source is shallowly embedded: prices and volumes (Python floats
produced by exact decimal strings) are modelled as rationals `ℚ`, dictionaries
keyed by price are modelled as association lists in insertion order, and
fallible endpoints return `Except`.  Each definition mirrors one function of
the source tree; theorems settle the frozen specification claims.
-/

set_option maxHeartbeats 1000000

namespace Twap

/-! ## Order-book data model

A price level of an aggregated order-book side is a `(price, (volume, source))`
entry of the Python dictionary, flattened to a triple `(price, volume, source)`.
-/

/-- One price level of an aggregated order-book side. -/
abbrev Level : Type := ℚ × ℚ × String

/-- The aggregated order book handed to `TwapOrder.check_execution`:
the `bids` and `asks` dictionaries, in iteration (insertion) order. -/
structure OrderBook where
  bids : List Level
  asks : List Level
deriving DecidableEq

/-- The comparison used by `sorted(valid_levels, key=lambda x: x[0])`
(ascending by price). -/
def priceLeAsc (a b : Level) : Prop := a.1 ≤ b.1

instance : DecidableRel priceLeAsc := fun a b => inferInstanceAs (Decidable (a.1 ≤ b.1))

instance : IsTotal Level priceLeAsc := ⟨fun a b => le_total a.1 b.1⟩

instance : IsTrans Level priceLeAsc := ⟨fun _ _ _ => le_trans⟩

/-- The comparison used by `sorted(valid_levels, key=lambda x: -x[0])`
(descending by price). -/
def priceLeDesc (a b : Level) : Prop := b.1 ≤ a.1

instance : DecidableRel priceLeDesc := fun a b => inferInstanceAs (Decidable (b.1 ≤ a.1))

instance : IsTotal Level priceLeDesc := ⟨fun a b => le_total b.1 a.1⟩

instance : IsTrans Level priceLeDesc := ⟨fun _ _ _ h h' => le_trans h' h⟩

/-! ## `TwapOrder.check_execution` (TwapOrder.py lines 66-102) -/

/-- The fill walk of `TwapOrder.check_execution` (lines 93-101): walk the
sorted levels; `break` when `remaining <= 0`; `continue` past non-positive
volumes; otherwise take `qty = min(remaining, available_volume)`, emit an
execution `(price, qty, source)` and decrement `remaining`. -/
def walkLevels : List Level → ℚ → List Level
  | [], _ => []
  | (price, available_volume, source) :: rest, remaining =>
    if remaining ≤ 0 then []
    else if available_volume ≤ 0 then walkLevels rest remaining
    else (price, min remaining available_volume, source) ::
      walkLevels rest (remaining - min remaining available_volume)

/-- `TwapOrder.check_execution`: on the buy side keep ask levels with
`price <= limit_price` sorted ascending by price, on the sell side keep bid
levels with `price >= limit_price` sorted descending by price, then run the
fill walk with budget `slice_quantity`.  Any other side returns no
executions.  (The book's prices are dictionary keys, hence pairwise distinct,
so the stable Python sort and insertion sort agree.) -/
def check_execution (side : String) (limit_price : ℚ) (order_book : OrderBook)
    (slice_quantity : ℚ) : List Level :=
  if side = "buy" then
    walkLevels
      (List.insertionSort priceLeAsc
        (order_book.asks.filter (fun l => l.1 ≤ limit_price)))
      slice_quantity
  else if side = "sell" then
    walkLevels
      (List.insertionSort priceLeDesc
        (order_book.bids.filter (fun l => limit_price ≤ l.1)))
      slice_quantity
  else []

/-! ## `TwapOrder.run` (TwapOrder.py lines 104-151)

`run` computes `slices = duration_seconds` and
`slice_quantity = total_quantity / slices` once, then for each of the
`slices` iterations fetches a book and appends the executions of
`check_execution(book, slice_quantity)`.  The book fetched at slice `i` is
modelled as `books i`.
-/

/-- `slice_quantity = self.total_quantity / slices` with
`slices = self.duration_seconds` (exact division in the rational model). -/
def slice_quantity (total_quantity : ℚ) (duration_seconds : ℕ) : ℚ :=
  total_quantity / duration_seconds

/-- The target quantity handed to slice `i`: the single `slice_quantity`
computed before the loop is used by every iteration of
`for _ in range(slices)`. -/
def sliceTarget (total_quantity : ℚ) (duration_seconds : ℕ) (_i : ℕ) : ℚ :=
  slice_quantity total_quantity duration_seconds

/-- The executions produced by slice `i` of `TwapOrder.run`. -/
def sliceExecs (side : String) (limit_price total_quantity : ℚ)
    (duration_seconds : ℕ) (books : ℕ → OrderBook) (i : ℕ) : List Level :=
  check_execution side limit_price (books i)
    (slice_quantity total_quantity duration_seconds)

/-- The executions appended by `TwapOrder.run` during its first `k` slices,
in order. -/
def execsUpTo (side : String) (limit_price total_quantity : ℚ)
    (duration_seconds : ℕ) (books : ℕ → OrderBook) (k : ℕ) : List Level :=
  (List.range k).flatMap
    (sliceExecs side limit_price total_quantity duration_seconds books)

/-- Running total of executed quantity over a list of executions
(`total_executed` accumulates `sub["quantity"]`). -/
def execTotal (l : List Level) : ℚ := (l.map (fun e => e.2.1)).sum

/-! ### Lemmas about the fill walk -/

/-- Every price emitted by the fill walk is the price of one of the input
levels. -/
theorem walkLevels_price_mem :
    ∀ (levels : List Level) (r : ℚ) (e : Level),
      e ∈ walkLevels levels r → e.1 ∈ levels.map Prod.fst := by
  intro levels
  induction levels with
  | nil => intro r e h; simp [walkLevels] at h
  | cons l rest ih =>
    intro r e h
    obtain ⟨p, v, s⟩ := l
    simp only [walkLevels] at h
    split at h
    · simp at h
    · split at h
      · exact List.mem_cons_of_mem _ (ih _ _ h)
      · rcases List.mem_cons.mp h with he | ht
        · subst he; simp
        · exact List.mem_cons_of_mem _ (ih _ _ ht)

/-- The fill walk never takes more than its budget `remaining`. -/
theorem walkLevels_total_le :
    ∀ (levels : List Level) (r : ℚ), 0 ≤ r →
      execTotal (walkLevels levels r) ≤ r := by
  intro levels
  induction levels with
  | nil => intro r hr; simpa [walkLevels, execTotal] using hr
  | cons l rest ih =>
    intro r hr
    obtain ⟨p, v, s⟩ := l
    simp only [walkLevels]
    split
    · simpa [execTotal] using hr
    · split
      · exact ih r hr
      · have hmin : min r v ≤ r := min_le_left _ _
        have h2 : (0 : ℚ) ≤ r - min r v := by linarith
        have h3 := ih (r - min r v) h2
        simp only [execTotal, List.map_cons, List.sum_cons] at h3 ⊢
        linarith

/-- A single `check_execution` call never exceeds its slice budget. -/
theorem check_execution_total_le (side : String) (limit_price : ℚ)
    (order_book : OrderBook) (sq : ℚ) (hsq : 0 ≤ sq) :
    execTotal (check_execution side limit_price order_book sq) ≤ sq := by
  unfold check_execution
  split
  · exact walkLevels_total_le _ _ hsq
  · split
    · exact walkLevels_total_le _ _ hsq
    · simpa [execTotal] using hsq

/-- Buy-side executions respect the limit price. -/
theorem check_execution_buy_le (limit_price sq : ℚ) (order_book : OrderBook) :
    ∀ e ∈ check_execution "buy" limit_price order_book sq, e.1 ≤ limit_price := by
  intro e he
  unfold check_execution at he
  rw [if_pos rfl] at he
  have h1 := walkLevels_price_mem _ _ _ he
  rw [List.mem_map] at h1
  obtain ⟨x, hx, hfst⟩ := h1
  rw [List.mem_insertionSort] at hx
  have h2 := List.of_mem_filter hx
  rw [← hfst]
  simpa using h2

/-- Sell-side executions respect the limit price. -/
theorem check_execution_sell_ge (limit_price sq : ℚ) (order_book : OrderBook) :
    ∀ e ∈ check_execution "sell" limit_price order_book sq, limit_price ≤ e.1 := by
  intro e he
  unfold check_execution at he
  rw [if_neg (by decide), if_pos rfl] at he
  have h1 := walkLevels_price_mem _ _ _ he
  rw [List.mem_map] at h1
  obtain ⟨x, hx, hfst⟩ := h1
  rw [List.mem_insertionSort] at hx
  have h2 := List.of_mem_filter hx
  rw [← hfst]
  simpa using h2

/-- C1: for every execution produced by a TWAP order, a buy execution's price
is at most the order's `limit_price` and a sell execution's price is at least
`limit_price`; this holds for every order book passed to `check_execution`
(first two conjuncts) and for every slice of `TwapOrder.run` (last two). -/
theorem c1_limit_price_respected (limit_price sq total_quantity : ℚ)
    (order_book : OrderBook) (duration_seconds : ℕ) (books : ℕ → OrderBook)
    (k : ℕ) :
    (∀ e ∈ check_execution "buy" limit_price order_book sq,
       e.1 ≤ limit_price) ∧
    (∀ e ∈ check_execution "sell" limit_price order_book sq,
       limit_price ≤ e.1) ∧
    (∀ e ∈ execsUpTo "buy" limit_price total_quantity duration_seconds books k,
       e.1 ≤ limit_price) ∧
    (∀ e ∈ execsUpTo "sell" limit_price total_quantity duration_seconds books k,
       limit_price ≤ e.1) := by
  refine ⟨check_execution_buy_le _ _ _, check_execution_sell_ge _ _ _, ?_, ?_⟩
  · intro e he
    rw [execsUpTo, List.mem_flatMap] at he
    obtain ⟨i, _, hi⟩ := he
    exact check_execution_buy_le _ _ _ e hi
  · intro e he
    rw [execsUpTo, List.mem_flatMap] at he
    obtain ⟨i, _, hi⟩ := he
    exact check_execution_sell_ge _ _ _ e hi

/-- Witness for C1 at a concrete book: the ask level `(10, 5, "Binance")`
fills `(10, 3, "Binance")` under limit price `12`, and `10 ≤ 12`. -/
theorem c1_limit_price_respected_witness :
    ((10 : ℚ), (3 : ℚ), "Binance") ∈
        check_execution "buy" 12 ⟨[], [(10, 5, "Binance")]⟩ 3 ∧
      ((10 : ℚ), (3 : ℚ), "Binance").1 ≤ (12 : ℚ) :=
  ⟨by decide,
    (c1_limit_price_respected 12 3 0 ⟨[], [(10, 5, "Binance")]⟩ 1 (fun _ => ⟨[], []⟩) 0).1
      ((10 : ℚ), (3 : ℚ), "Binance") (by decide)⟩

theorem execTotal_append (a b : List Level) :
    execTotal (a ++ b) = execTotal a + execTotal b := by
  simp [execTotal]

theorem execsUpTo_succ (side : String) (lp tq : ℚ) (dur : ℕ)
    (books : ℕ → OrderBook) (k : ℕ) :
    execsUpTo side lp tq dur books (k + 1) =
      execsUpTo side lp tq dur books k ++ sliceExecs side lp tq dur books k := by
  simp [execsUpTo, List.range_succ]

/-- C2: with `total_quantity > 0` and `duration_seconds ≥ 1`, after every
slice the running total of executed quantity is at most `total_quantity`
(first conjunct), and a slice's executions depend only on that slice's own
book at the fixed per-slice budget, so no residual of one slice is carried
into later slices (second conjunct). -/
theorem c2_total_executed_bounded (side : String)
    (limit_price total_quantity : ℚ) (duration_seconds : ℕ)
    (books : ℕ → OrderBook)
    (h1 : 0 < total_quantity) (h2 : 1 ≤ duration_seconds) :
    (∀ k ≤ duration_seconds,
       execTotal (execsUpTo side limit_price total_quantity duration_seconds
         books k) ≤ total_quantity) ∧
    (∀ (i : ℕ) (books' : ℕ → OrderBook), books i = books' i →
       sliceExecs side limit_price total_quantity duration_seconds books i =
         sliceExecs side limit_price total_quantity duration_seconds books' i)
    := by
  have hd0 : (0 : ℚ) < (duration_seconds : ℚ) := by
    exact_mod_cast lt_of_lt_of_le one_pos h2
  have hsq : 0 ≤ slice_quantity total_quantity duration_seconds :=
    div_nonneg h1.le hd0.le
  constructor
  · intro k hk
    have hstep : ∀ m, execTotal (execsUpTo side limit_price total_quantity
        duration_seconds books m) ≤
          m * slice_quantity total_quantity duration_seconds := by
      intro m
      induction m with
      | zero => simp [execsUpTo, execTotal]
      | succ n ih =>
        rw [execsUpTo_succ, execTotal_append]
        have hone := check_execution_total_le side limit_price (books n)
          (slice_quantity total_quantity duration_seconds) hsq
        have : ((n + 1 : ℕ) : ℚ) * slice_quantity total_quantity duration_seconds
            = (n : ℚ) * slice_quantity total_quantity duration_seconds +
              slice_quantity total_quantity duration_seconds := by
          push_cast; ring
        rw [this]
        exact add_le_add ih hone
    calc execTotal (execsUpTo side limit_price total_quantity duration_seconds
            books k)
        ≤ k * slice_quantity total_quantity duration_seconds := hstep k
      _ ≤ duration_seconds * slice_quantity total_quantity duration_seconds := by
          apply mul_le_mul_of_nonneg_right _ hsq
          exact_mod_cast hk
      _ = total_quantity := by
          unfold slice_quantity
          field_simp
  · intro i books' hi
    unfold sliceExecs
    rw [hi]

/-- Witness for C2: concrete order with `total_quantity = 1 > 0` and
`duration_seconds = 2 ≥ 1`, bound evaluated after both slices. -/
theorem c2_total_executed_bounded_witness :
    (0 : ℚ) < 1 ∧ (1 : ℕ) ≤ 2 ∧
      execTotal (execsUpTo "buy" 10 1 2
        (fun _ => ⟨[], [(9, 4, "Binance")]⟩) 2) ≤ 1 :=
  ⟨by norm_num, by norm_num,
    (c2_total_executed_bounded "buy" 10 1 2 (fun _ => ⟨[], [(9, 4, "Binance")]⟩)
      (by norm_num) (by norm_num)).1 2 le_rfl⟩

theorem sum_map_const_range (n : ℕ) (c : ℚ) :
    ((List.range n).map (fun _ => c)).sum = n * c := by
  induction n with
  | zero => simp
  | succ m ih =>
    rw [List.range_succ]
    simp only [List.map_append, List.sum_append, List.map_cons, List.map_nil,
      List.sum_cons, List.sum_nil, ih]
    push_cast
    ring

/-- C5: `TwapOrder.run` schedules exactly `duration_seconds` slices, every
slice (in particular every non-final one) targets
`total_quantity / duration_seconds`, and the final slice's target equals
`total_quantity` minus the sum of the targets of all earlier slices (in the
exact rational model the residual absorbed is zero). -/
theorem c5_slice_schedule (total_quantity : ℚ) (duration_seconds : ℕ)
    (h : 1 ≤ duration_seconds) :
    ((List.range duration_seconds).map
        (sliceTarget total_quantity duration_seconds)).length
      = duration_seconds ∧
    (∀ i, i < duration_seconds →
       sliceTarget total_quantity duration_seconds i
         = total_quantity / duration_seconds) ∧
    sliceTarget total_quantity duration_seconds (duration_seconds - 1)
      = total_quantity -
        ((List.range (duration_seconds - 1)).map
          (sliceTarget total_quantity duration_seconds)).sum := by
  have hd0 : (0 : ℚ) < (duration_seconds : ℚ) := by
    exact_mod_cast lt_of_lt_of_le one_pos h
  refine ⟨by simp, fun i _ => rfl, ?_⟩
  unfold sliceTarget slice_quantity
  rw [sum_map_const_range]
  have hcast : ((duration_seconds - 1 : ℕ) : ℚ) = (duration_seconds : ℚ) - 1 := by
    rw [Nat.cast_sub h, Nat.cast_one]
  rw [hcast]
  field_simp
  ring

/-- Witness for C5 at `total_quantity = 6`, `duration_seconds = 3`. -/
theorem c5_slice_schedule_witness :
    (1 : ℕ) ≤ 3 ∧
      sliceTarget 6 3 2 = 6 - ((List.range 2).map (sliceTarget 6 3)).sum :=
  ⟨by norm_num, by
    have h := (c5_slice_schedule 6 3 (by norm_num)).2.2
    simpa using h⟩

/-! ## `ExchangeMulti.aggregate_order_books` (ExchangeMulti.py lines 55-105)

One round of the aggregator: merge the venues' `bids`/`asks` dictionaries by
price, keeping at each price the `(volume, venue)` with the strictly larger
volume (first venue wins ties), then sort and truncate each side to 10
levels.
-/

/-- One venue's order book as collected in a round: the venue name (class
name with the `Exchange` part stripped) plus its `bids` and `asks`
dictionaries as `(price, volume)` lists in iteration order. -/
structure VenueBook where
  name : String
  bids : List (ℚ × ℚ)
  asks : List (ℚ × ℚ)
deriving DecidableEq

/-- One update of an aggregation dictionary (lines 83-88 / 91-96): if the
price is already a key, replace its `(volume, venue)` value only when the
stored volume is strictly smaller than the new one; otherwise insert the new
entry at the end (Python dict insertion order). -/
def aggUpdate (m : List Level) (price volume : ℚ) (venue : String) :
    List Level :=
  if m.any (fun e => e.1 = price) then
    m.map (fun e =>
      if e.1 = price ∧ e.2.1 < volume then (price, volume, venue) else e)
  else
    m ++ [(price, volume, venue)]

/-- The flattened `(price, volume, venue)` ask entries of a round, in
iteration order (outer loop over `results`, inner loop over each venue's
`asks.items()`). -/
def askEntries (books : List VenueBook) : List Level :=
  books.flatMap (fun b => b.asks.map (fun l => (l.1, l.2, b.name)))

/-- The flattened `(price, volume, venue)` bid entries of a round. -/
def bidEntries (books : List VenueBook) : List Level :=
  books.flatMap (fun b => b.bids.map (fun l => (l.1, l.2, b.name)))

/-- The aggregation dictionary built by the merge loops of lines 77-96. -/
def aggSide (entries : List Level) : List Level :=
  entries.foldl (fun acc e => aggUpdate acc e.1 e.2.1 e.2.2) []

/-- The consolidated snapshot `{"bids": ..., "asks": ...}` emitted by one
round. -/
structure Snapshot where
  bids : List Level
  asks : List Level
deriving DecidableEq

/-- `ExchangeMulti.aggregate_order_books`, one round (lines 73-105): merge
the venues' sides, sort bids descending and asks ascending by price, and
keep the top 10 levels of each side. -/
def aggregate_order_books (books : List VenueBook) : Snapshot :=
  { bids := (List.insertionSort priceLeDesc (aggSide (bidEntries books))).take 10
    asks := (List.insertionSort priceLeAsc (aggSide (askEntries books))).take 10 }

/-- The `(volume, venue)` pairs contributed at price `p` across the round, in
iteration order. -/
def volumesAt (entries : List Level) (p : ℚ) : List (ℚ × String) :=
  (entries.filter (fun e => e.1 = p)).map (fun e => e.2)

/-- Dictionary lookup by price key. -/
def lookupPrice (m : List Level) (p : ℚ) : Option (ℚ × String) :=
  (m.find? (fun e => e.1 = p)).map (fun e => e.2)

/-- One step of the running best choice: keep the stored pair unless the new
volume is strictly larger (so the first venue observed wins ties). -/
def bestStep (acc : Option (ℚ × String)) (x : ℚ × String) :
    Option (ℚ × String) :=
  match acc with
  | none => some x
  | some a => if a.1 < x.1 then some x else some a

/-- The price keys of an aggregation dictionary are pairwise distinct. -/
def keysNodup (m : List Level) : Prop := (m.map Prod.fst).Nodup

theorem aggUpdate_keys_nodup (m : List Level) (p v : ℚ) (s : String)
    (h : keysNodup m) : keysNodup (aggUpdate m p v s) := by
  unfold aggUpdate
  split
  · have : (m.map (fun e =>
        if e.1 = p ∧ e.2.1 < v then (p, v, s) else e)).map Prod.fst
        = m.map Prod.fst := by
      rw [List.map_map]
      apply List.map_congr_left
      intro e _
      by_cases he : e.1 = p ∧ e.2.1 < v
      · simp [he, he.1]
      · simp [he]
    unfold keysNodup
    rw [this]
    exact h
  · rename_i hany
    unfold keysNodup
    rw [List.map_append]
    simp only [List.map_cons, List.map_nil]
    rw [List.nodup_append]
    refine ⟨h, List.nodup_singleton _, ?_⟩
    intro x hx hy
    simp only [List.mem_singleton] at hy
    apply hany
    rw [List.any_eq_true]
    rw [List.mem_map] at hx
    obtain ⟨e, he, hfst⟩ := hx
    exact ⟨e, he, by simp [hfst, hy]⟩

/-- Effect of one dictionary update on lookup: at the updated price the
stored pair moves one `bestStep`; other prices are untouched. -/
theorem lookupPrice_aggUpdate (m : List Level) (p v : ℚ) (s : String) (q : ℚ) :
    lookupPrice (aggUpdate m p v s) q =
      if q = p then bestStep (lookupPrice m p) (v, s) else lookupPrice m q := by
  unfold aggUpdate
  by_cases hany : m.any (fun e => decide (e.1 = p)) = true
  · rw [if_pos hany]
    have hmap : ∀ e : Level,
        ((fun e : Level =>
          if e.1 = p ∧ e.2.1 < v then (p, v, s) else e) e).1 = e.1 := by
      intro e
      by_cases he : e.1 = p ∧ e.2.1 < v
      · simp [he, he.1]
      · simp [he]
    by_cases hq : q = p
    · subst hq
      rw [if_pos rfl]
      unfold lookupPrice
      rw [List.find?_map]
      have hpred : ((fun e : Level => decide (e.1 = q)) ∘
          (fun e : Level => if e.1 = q ∧ e.2.1 < v then (q, v, s) else e))
          = (fun e : Level => decide (e.1 = q)) := by
        funext e
        simp only [Function.comp_apply]
        congr 1
        rw [hmap e]
      rw [hpred]
      rw [List.any_eq_true] at hany
      obtain ⟨x, hx, hxp⟩ := hany
      have hsome : (m.find? (fun e => decide (e.1 = q))).isSome := by
        rw [List.find?_isSome]
        exact ⟨x, hx, hxp⟩
      obtain ⟨e₀, he₀⟩ := Option.isSome_iff_exists.mp hsome
      rw [he₀]
      have he₀p : e₀.1 = q := by simpa using List.find?_some he₀
      by_cases hlt : e₀.2.1 < v
      · simp [bestStep, he₀p, hlt]
      · simp [bestStep, hlt]
    · rw [if_neg hq]
      unfold lookupPrice
      rw [List.find?_map]
      have hpred : ((fun e : Level => decide (e.1 = q)) ∘
          (fun e : Level => if e.1 = p ∧ e.2.1 < v then (p, v, s) else e))
          = (fun e : Level => decide (e.1 = q)) := by
        funext e
        simp only [Function.comp_apply]
        congr 1
        rw [hmap e]
      rw [hpred]
      cases hfind : m.find? (fun e => decide (e.1 = q)) with
      | none => simp
      | some e₀ =>
        have he₀p : e₀.1 = q := by simpa using List.find?_some hfind
        have : ¬ (e₀.1 = p ∧ e₀.2.1 < v) := fun hc => hq (he₀p ▸ hc.1)
        simp [this]
  · rw [if_neg hany]
    have hnone : m.find? (fun e => decide (e.1 = p)) = none := by
      rw [List.find?_eq_none]
      intro x hx hxp
      exact hany (List.any_eq_true.mpr ⟨x, hx, hxp⟩)
    by_cases hq : q = p
    · subst hq
      rw [if_pos rfl]
      unfold lookupPrice
      rw [List.find?_append, hnone]
      simp [bestStep]
    · rw [if_neg hq]
      unfold lookupPrice
      rw [List.find?_append]
      have : List.find? (fun e : Level => decide (e.1 = q)) [(p, v, s)] = none := by
        simp [Ne.symm hq]
      rw [this]
      simp

/-- Folding the merge loop: the dictionary entry at any price is the
`bestStep` fold of the `(volume, venue)` pairs contributed at that price. -/
theorem lookupPrice_foldl_aggUpdate :
    ∀ (entries m : List Level) (q : ℚ),
      lookupPrice
          (entries.foldl (fun acc e => aggUpdate acc e.1 e.2.1 e.2.2) m) q
        = (volumesAt entries q).foldl bestStep (lookupPrice m q) := by
  intro entries
  induction entries with
  | nil => intro m q; simp [volumesAt]
  | cons e es ih =>
    intro m q
    obtain ⟨p, v, s⟩ := e
    simp only [List.foldl_cons]
    rw [ih]
    by_cases hq : q = p
    · subst hq
      have h1 : lookupPrice (aggUpdate m q v s) q
          = bestStep (lookupPrice m q) (v, s) := by
        rw [lookupPrice_aggUpdate]; simp
      have h2 : volumesAt ((q, v, s) :: es) q = (v, s) :: volumesAt es q := by
        simp [volumesAt]
      rw [h1, h2, List.foldl_cons]
    · have h1 : lookupPrice (aggUpdate m p v s) q = lookupPrice m q := by
        rw [lookupPrice_aggUpdate]; simp [hq]
      have h2 : volumesAt ((p, v, s) :: es) q = volumesAt es q := by
        simp [volumesAt, Ne.symm hq]
      rw [h1, h2]

/-- The merged dictionary has pairwise-distinct price keys. -/
theorem aggSide_keys_nodup (entries : List Level) :
    keysNodup (aggSide entries) := by
  unfold aggSide
  have hgen : ∀ (es m : List Level), keysNodup m →
      keysNodup (es.foldl (fun acc e => aggUpdate acc e.1 e.2.1 e.2.2) m) := by
    intro es
    induction es with
    | nil => intro m h; exact h
    | cons e es ih =>
      intro m h
      exact ih _ (aggUpdate_keys_nodup _ _ _ _ h)
  exact hgen entries [] (by simp [keysNodup])

/-- In a dictionary with distinct keys, membership determines the lookup. -/
theorem lookupPrice_of_mem :
    ∀ (m : List Level), keysNodup m → ∀ (p v : ℚ) (s : String),
      (p, v, s) ∈ m → lookupPrice m p = some (v, s) := by
  intro m
  induction m with
  | nil => intro _ p v s h; simp at h
  | cons e rest ih =>
    intro hk p v s hmem
    have hk' : e.1 ∉ rest.map Prod.fst ∧ keysNodup rest := by
      unfold keysNodup at hk
      rw [List.map_cons, List.nodup_cons] at hk
      exact hk
    rcases List.mem_cons.mp hmem with he | ht
    · rw [← he]
      simp [lookupPrice]
    · have hne : ¬ (e.1 = p) := by
        intro hc
        exact hk'.1 (hc ▸ List.mem_map.mpr ⟨(p, v, s), ht, rfl⟩)
      unfold lookupPrice
      rw [List.find?_cons_of_neg _ (by simpa using hne)]
      exact ih hk'.2 p v s ht

/-- Specification of the running best fold, started from one element: the
result carries the maximum volume seen, and equals either the start element
(when nothing beat it) or the first strictly-better element of the list. -/
theorem foldl_bestStep_spec :
    ∀ (l : List (ℚ × String)) (a : ℚ × String),
      ∃ v w, l.foldl bestStep (some a) = some (v, w) ∧ a.1 ≤ v ∧
        (∀ x ∈ l, x.1 ≤ v) ∧
        ((a.1 = v ∧ (v, w) = a) ∨
          (a.1 < v ∧ l.find? (fun x => x.1 = v) = some (v, w))) := by
  intro l
  induction l with
  | nil =>
    intro a
    exact ⟨a.1, a.2, by simp, le_refl _, by simp, Or.inl ⟨rfl, rfl⟩⟩
  | cons x xs ih =>
    intro a
    by_cases hlt : a.1 < x.1
    · have hstep : bestStep (some a) x = some x := by simp [bestStep, hlt]
      obtain ⟨v, w, hfold, hle, hall, hdisj⟩ := ih x
      refine ⟨v, w, ?_, ?_, ?_, Or.inr ⟨lt_of_lt_of_le hlt hle, ?_⟩⟩
      · rw [List.foldl_cons, hstep]; exact hfold
      · exact le_of_lt (lt_of_lt_of_le hlt hle)
      · intro y hy
        rcases List.mem_cons.mp hy with h | h
        · rw [h]; exact hle
        · exact hall y h
      · rcases hdisj with ⟨hxv, hxw⟩ | ⟨hxlt, hfind⟩
        · rw [List.find?_cons_of_pos _ (by simp [hxv])]
          rw [hxw]
        · rw [List.find?_cons_of_neg _ (by simp [ne_of_lt hxlt])]
          exact hfind
    · have hstep : bestStep (some a) x = some a := by simp [bestStep, hlt]
      obtain ⟨v, w, hfold, hle, hall, hdisj⟩ := ih a
      refine ⟨v, w, ?_, hle, ?_, ?_⟩
      · rw [List.foldl_cons, hstep]; exact hfold
      · intro y hy
        rcases List.mem_cons.mp hy with h | h
        · rw [h]; exact le_trans (le_of_not_lt hlt) hle
        · exact hall y h
      · rcases hdisj with hl | ⟨halt, hfind⟩
        · exact Or.inl hl
        · refine Or.inr ⟨halt, ?_⟩
          rw [List.find?_cons_of_neg _ ?_]
          · exact hfind
          · simp only [decide_eq_true_eq]
            exact ne_of_lt (lt_of_le_of_lt (le_of_not_lt hlt) halt)

/-- Specification of the running best fold started from `none` (an empty
dictionary entry): the retained pair holds the maximum volume at that price
and is the first entry, in iteration order, attaining it. -/
theorem foldl_bestStep_none_spec (l : List (ℚ × String)) (v : ℚ) (w : String)
    (h : l.foldl bestStep none = some (v, w)) :
    (∀ x ∈ l, x.1 ≤ v) ∧ l.find? (fun x => x.1 = v) = some (v, w) := by
  cases l with
  | nil => simp at h
  | cons x xs =>
    have hstep : bestStep none x = some x := rfl
    rw [List.foldl_cons, hstep] at h
    obtain ⟨v', w', hfold, hle, hall, hdisj⟩ := foldl_bestStep_spec xs x
    have heq : (v', w') = (v, w) := Option.some.inj (hfold.symm.trans h)
    rw [Prod.mk.injEq] at heq
    obtain ⟨rfl, rfl⟩ := heq
    constructor
    · intro y hy
      rcases List.mem_cons.mp hy with hh | hh
      · rw [hh]; exact hle
      · exact hall y hh
    · rcases hdisj with ⟨hxv, hxw⟩ | ⟨hxlt, hfind⟩
      · rw [List.find?_cons_of_pos _ (by simp [hxv])]
        rw [hxw]
      · rw [List.find?_cons_of_neg _ (by simp [ne_of_lt hxlt])]
        exact hfind

/-- C3: for each price present on a side of the emitted consolidated
snapshot, the retained `(volume, venue)` pair has the maximum volume over
all `(volume, venue)` contributions at that price, and it is the first
contribution in iteration order attaining that maximum (ties keep the venue
observed first). -/
theorem c3_max_volume_retained (books : List VenueBook) (p v : ℚ)
    (ven : String) :
    ((p, v, ven) ∈ (aggregate_order_books books).asks →
       (∀ x ∈ volumesAt (askEntries books) p, x.1 ≤ v) ∧
       (volumesAt (askEntries books) p).find? (fun x => x.1 = v)
         = some (v, ven)) ∧
    ((p, v, ven) ∈ (aggregate_order_books books).bids →
       (∀ x ∈ volumesAt (bidEntries books) p, x.1 ≤ v) ∧
       (volumesAt (bidEntries books) p).find? (fun x => x.1 = v)
         = some (v, ven)) := by
  constructor
  · intro h
    have h1 : (p, v, ven) ∈ aggSide (askEntries books) := by
      have h2 := (List.take_sublist 10 _).subset h
      rwa [List.mem_insertionSort] at h2
    have h3 : lookupPrice (aggSide (askEntries books)) p = some (v, ven) :=
      lookupPrice_of_mem _ (aggSide_keys_nodup _) _ _ _ h1
    have h4 : lookupPrice (aggSide (askEntries books)) p
        = (volumesAt (askEntries books) p).foldl bestStep none := by
      have h5 := lookupPrice_foldl_aggUpdate (askEntries books) [] p
      simpa [aggSide, lookupPrice] using h5
    rw [h4] at h3
    exact foldl_bestStep_none_spec _ _ _ h3
  · intro h
    have h1 : (p, v, ven) ∈ aggSide (bidEntries books) := by
      have h2 := (List.take_sublist 10 _).subset h
      rwa [List.mem_insertionSort] at h2
    have h3 : lookupPrice (aggSide (bidEntries books)) p = some (v, ven) :=
      lookupPrice_of_mem _ (aggSide_keys_nodup _) _ _ _ h1
    have h4 : lookupPrice (aggSide (bidEntries books)) p
        = (volumesAt (bidEntries books) p).foldl bestStep none := by
      have h5 := lookupPrice_foldl_aggUpdate (bidEntries books) [] p
      simpa [aggSide, lookupPrice] using h5
    rw [h4] at h3
    exact foldl_bestStep_none_spec _ _ _ h3

/-- Witness for C3: two venues quote equal volume 5 at ask price 10; the
snapshot retains the first-observed venue. -/
theorem c3_max_volume_retained_witness :
    ((10 : ℚ), (5 : ℚ), "Binance") ∈
        (aggregate_order_books
          [⟨"Binance", [], [(10, 5)]⟩, ⟨"Coinbase", [], [(10, 5)]⟩]).asks ∧
      ((∀ x ∈ volumesAt (askEntries
            [⟨"Binance", [], [(10, 5)]⟩, ⟨"Coinbase", [], [(10, 5)]⟩]) 10,
          x.1 ≤ 5) ∧
        (volumesAt (askEntries
            [⟨"Binance", [], [(10, 5)]⟩, ⟨"Coinbase", [], [(10, 5)]⟩]) 10).find?
            (fun x => x.1 = 5)
          = some (5, "Binance")) :=
  ⟨by decide,
    (c3_max_volume_retained
      [⟨"Binance", [], [(10, 5)]⟩, ⟨"Coinbase", [], [(10, 5)]⟩]
      10 5 "Binance").1 (by decide)⟩

/-- C4 (amended): every snapshot emitted by the aggregator has asks strictly
ascending by price, bids strictly descending by price, and at most 10 levels
per side.  (The crossing clause of the original claim is refuted by
`c4_crossing_false`: the aggregator never compares the two sides.) -/
theorem c4_snapshot_sorted_bounded (books : List VenueBook) :
    (aggregate_order_books books).asks.Pairwise (fun a b => a.1 < b.1) ∧
    (aggregate_order_books books).bids.Pairwise (fun a b => b.1 < a.1) ∧
    (aggregate_order_books books).asks.length ≤ 10 ∧
    (aggregate_order_books books).bids.length ≤ 10 := by
  have hasks : (List.insertionSort priceLeAsc
      (aggSide (askEntries books))).Pairwise (fun a b => a.1 < b.1) := by
    have hs := List.sorted_insertionSort priceLeAsc (aggSide (askEntries books))
    have hperm := (List.perm_insertionSort priceLeAsc
      (aggSide (askEntries books))).map Prod.fst
    have hnd : ((List.insertionSort priceLeAsc
        (aggSide (askEntries books))).map Prod.fst).Nodup :=
      hperm.nodup_iff.mpr (aggSide_keys_nodup _)
    have hne : (List.insertionSort priceLeAsc
        (aggSide (askEntries books))).Pairwise (fun a b => a.1 ≠ b.1) :=
      List.pairwise_map.mp hnd
    exact (hs.and hne).imp (fun h => lt_of_le_of_ne h.1 h.2)
  have hbids : (List.insertionSort priceLeDesc
      (aggSide (bidEntries books))).Pairwise (fun a b => b.1 < a.1) := by
    have hs := List.sorted_insertionSort priceLeDesc (aggSide (bidEntries books))
    have hperm := (List.perm_insertionSort priceLeDesc
      (aggSide (bidEntries books))).map Prod.fst
    have hnd : ((List.insertionSort priceLeDesc
        (aggSide (bidEntries books))).map Prod.fst).Nodup :=
      hperm.nodup_iff.mpr (aggSide_keys_nodup _)
    have hne : (List.insertionSort priceLeDesc
        (aggSide (bidEntries books))).Pairwise (fun a b => a.1 ≠ b.1) :=
      List.pairwise_map.mp hnd
    exact (hs.and hne).imp (fun h => lt_of_le_of_ne h.1 (Ne.symm h.2))
  exact ⟨List.Pairwise.sublist (List.take_sublist 10 _) hasks,
    List.Pairwise.sublist (List.take_sublist 10 _) hbids,
    List.length_take_le _ _, List.length_take_le _ _⟩

/-- The crossing clause of claim C4, stated from the spec's words: whenever
both sides of a snapshot are non-empty, every retained bid price is strictly
below every retained ask price. -/
def noCross (s : Snapshot) : Prop := ∀ a ∈ s.asks, ∀ b ∈ s.bids, b.1 < a.1

instance (s : Snapshot) : Decidable (noCross s) := by
  unfold noCross
  infer_instance

/-- Counterexample to C4 as stated: two individually well-formed venue books
(Binance bid 100 / ask 101, Coinbase bid 98 / ask 99) consolidate into a
crossed snapshot whose best bid 100 is not below the best ask 99 — the
aggregator never compares the two sides. -/
theorem c4_crossing_false :
    ¬ noCross (aggregate_order_books
      [⟨"Binance", [(100, 1)], [(101, 1)]⟩,
       ⟨"Coinbase", [(98, 1)], [(99, 1)]⟩]) := by
  decide

/-! ## `ConnectionManager` (Server.py lines 183-291)

State of the WebSocket hub: `active_connections` (sessions are modelled by
numeric handles), the `subscriptions` dictionary mapping each connected
session to its set of subscribed symbols, and the keys of the
`broadcast_tasks` dictionary.  The operations are the four state changes of
`connect`, the `subscribe`/`unsubscribe` branches of `handle_websocket`, and
`disconnect`.
-/

/-- Hub state: `active_connections`, `subscriptions`, and the symbols that
currently own a broadcast task. -/
structure HubState where
  active : List ℕ
  subs : List (ℕ × List String)
  tasks : List String
deriving DecidableEq

/-- The four hub operations a session's lifetime can produce. -/
inductive HubOp
  | connect (ws : ℕ)
  | subscribe (ws : ℕ) (symbol : String)
  | unsubscribe (ws : ℕ) (symbol : String)
  | disconnect (ws : ℕ)
deriving DecidableEq

/-- `websocket in self.subscriptions`. -/
def hasKey (subs : List (ℕ × List String)) (ws : ℕ) : Bool :=
  subs.any (fun e => e.1 = ws)

/-- `self.subscriptions[websocket]` (defaulting to `[]`, unreachable for a
registered session). -/
def getSymbols (subs : List (ℕ × List String)) (ws : ℕ) : List String :=
  ((subs.find? (fun e => e.1 = ws)).map (fun e => e.2)).getD []

/-- `self.subscriptions[websocket] = symbols` for a registered key. -/
def setSymbols (subs : List (ℕ × List String)) (ws : ℕ) (l : List String) :
    List (ℕ × List String) :=
  subs.map (fun e => if e.1 = ws then (ws, l) else e)

/-- `any(symbol in subs for subs in self.subscriptions.values())`. -/
def anySubscriber (subs : List (ℕ × List String)) (sym : String) : Bool :=
  subs.any (fun e => sym ∈ e.2)

/-- One hub operation.  `connect` registers a fresh handle (a WebSocket
object is unique per connection, so re-registering an existing key cannot
occur and is modelled as a no-op); `subscribe`/`unsubscribe` frames are only
processed for sessions `connect` has registered, so an unregistered handle
is likewise a no-op. -/
def hubStep (s : HubState) : HubOp → HubState
  | .connect ws =>
    if hasKey s.subs ws then s
    else { active := s.active ++ [ws], subs := s.subs ++ [(ws, [])],
           tasks := s.tasks }
  | .subscribe ws symbol =>
    if hasKey s.subs ws then
      if symbol ∈ getSymbols s.subs ws then s
      else
        { active := s.active,
          subs := setSymbols s.subs ws (getSymbols s.subs ws ++ [symbol]),
          tasks := if symbol ∈ s.tasks then s.tasks else s.tasks ++ [symbol] }
    else s
  | .unsubscribe ws symbol =>
    if hasKey s.subs ws then
      if symbol ∈ getSymbols s.subs ws then
        let subs' := setSymbols s.subs ws ((getSymbols s.subs ws).erase symbol)
        { active := s.active, subs := subs',
          tasks := if anySubscriber subs' symbol then s.tasks
                   else s.tasks.erase symbol }
      else s
    else s
  | .disconnect ws =>
    if hasKey s.subs ws then
      let syms := getSymbols s.subs ws
      let subs' := s.subs.filter (fun e => ¬ (e.1 = ws))
      { active := s.active.erase ws, subs := subs',
        tasks := syms.foldl
          (fun ts sym => if anySubscriber subs' sym then ts else ts.erase sym)
          s.tasks }
    else { active := s.active.erase ws, subs := s.subs, tasks := s.tasks }

/-- Running the hub from its initial empty state. -/
def hubRun (ops : List HubOp) : HubState :=
  ops.foldl hubStep ⟨[], [], []⟩

/-- The reference-count invariant: session keys are distinct, at most one
broadcast task exists per symbol, and a symbol owns a task exactly when some
connected session subscribes to it. -/
def hubInv (s : HubState) : Prop :=
  (s.subs.map Prod.fst).Nodup ∧ s.tasks.Nodup ∧
  ∀ sym : String, sym ∈ s.tasks ↔ ∃ e ∈ s.subs, sym ∈ e.2

/-- In a subscriptions dictionary with distinct keys, membership determines
the `find?` by key. -/
theorem find?_subsKey_of_mem :
    ∀ (subs : List (ℕ × List String)), (subs.map Prod.fst).Nodup →
      ∀ e ∈ subs, subs.find? (fun x => x.1 = e.1) = some e := by
  intro subs
  induction subs with
  | nil => intro _ e he; simp at he
  | cons x rest ih =>
    intro hk e he
    have hk' : x.1 ∉ rest.map Prod.fst ∧ (rest.map Prod.fst).Nodup := by
      rw [List.map_cons, List.nodup_cons] at hk
      exact hk
    rcases List.mem_cons.mp he with h | h
    · rw [h]
      exact List.find?_cons_of_pos _ (by simp)
    · have hne : ¬ (x.1 = e.1) := by
        intro hc
        apply hk'.1
        rw [hc]
        exact List.mem_map.mpr ⟨e, h, rfl⟩
      rw [List.find?_cons_of_neg _ (by simpa using hne)]
      exact ih hk'.2 e h

/-- `getSymbols` of a registered session returns that session's entry. -/
theorem getSymbols_eq (subs : List (ℕ × List String))
    (hkeys : (subs.map Prod.fst).Nodup) (e : ℕ × List String) (he : e ∈ subs) :
    getSymbols subs e.1 = e.2 := by
  unfold getSymbols
  rw [find?_subsKey_of_mem subs hkeys e he]
  rfl

/-- With distinct keys, two entries sharing a key coincide. -/
theorem subs_entry_unique (subs : List (ℕ × List String))
    (hkeys : (subs.map Prod.fst).Nodup) (e₁ e₂ : ℕ × List String)
    (h1 : e₁ ∈ subs) (h2 : e₂ ∈ subs) (hkey : e₁.1 = e₂.1) : e₁ = e₂ := by
  have f1 := find?_subsKey_of_mem subs hkeys e₁ h1
  have f2 := find?_subsKey_of_mem subs hkeys e₂ h2
  rw [hkey] at f1
  exact Option.some.inj (f1.symm.trans f2)

/-- Dictionary assignment does not change the key sequence. -/
theorem setSymbols_keys (subs : List (ℕ × List String)) (ws : ℕ)
    (l : List String) :
    (setSymbols subs ws l).map Prod.fst = subs.map Prod.fst := by
  unfold setSymbols
  rw [List.map_map]
  apply List.map_congr_left
  intro e _
  by_cases he : e.1 = ws
  · simp [he]
  · simp [he]

theorem mem_setSymbols (subs : List (ℕ × List String)) (ws : ℕ)
    (l : List String) (e' : ℕ × List String) :
    e' ∈ setSymbols subs ws l ↔
      ∃ e ∈ subs, e' = if e.1 = ws then (ws, l) else e := by
  unfold setSymbols
  rw [List.mem_map]
  constructor
  · rintro ⟨e, he, hfe⟩
    exact ⟨e, he, hfe.symm⟩
  · rintro ⟨e, he, hfe⟩
    exact ⟨e, he, hfe.symm⟩

theorem anySubscriber_iff (subs : List (ℕ × List String)) (sym : String) :
    anySubscriber subs sym = true ↔ ∃ e ∈ subs, sym ∈ e.2 := by
  unfold anySubscriber
  rw [List.any_eq_true]
  simp

/-- Who subscribes to `sym` after assigning session `ws` the symbol set
`l`: either another session already did, or `sym ∈ l`. -/
theorem exists_setSymbols_iff (subs : List (ℕ × List String)) (ws : ℕ)
    (hk : hasKey subs ws = true) (l : List String) (sym : String) :
    (∃ e ∈ setSymbols subs ws l, sym ∈ e.2) ↔
      ((∃ e ∈ subs, e.1 ≠ ws ∧ sym ∈ e.2) ∨ sym ∈ l) := by
  constructor
  · rintro ⟨e', he', hs⟩
    rw [mem_setSymbols] at he'
    obtain ⟨e, he, heq⟩ := he'
    by_cases hews : e.1 = ws
    · rw [heq, if_pos hews] at hs
      right
      simpa using hs
    · rw [heq, if_neg hews] at hs
      left
      exact ⟨e, he, hews, hs⟩
  · rintro (⟨e, he, hne, hs⟩ | hs)
    · refine ⟨e, ?_, hs⟩
      rw [mem_setSymbols]
      exact ⟨e, he, by rw [if_neg hne]⟩
    · unfold hasKey at hk
      rw [List.any_eq_true] at hk
      obtain ⟨e, he, hews⟩ := hk
      simp only [decide_eq_true_eq] at hews
      refine ⟨(ws, l), ?_, hs⟩
      rw [mem_setSymbols]
      exact ⟨e, he, by rw [if_pos hews]⟩

/-- Splitting a subscriber search at the registered session `ws`. -/
theorem exists_subs_split (subs : List (ℕ × List String))
    (hkeys : (subs.map Prod.fst).Nodup) (ws : ℕ)
    (hk : hasKey subs ws = true) (sym : String) :
    (∃ e ∈ subs, sym ∈ e.2) ↔
      ((∃ e ∈ subs, e.1 ≠ ws ∧ sym ∈ e.2) ∨ sym ∈ getSymbols subs ws) := by
  constructor
  · rintro ⟨e, he, hs⟩
    by_cases hews : e.1 = ws
    · right
      have hg := getSymbols_eq subs hkeys e he
      rw [hews] at hg
      rw [hg]
      exact hs
    · left
      exact ⟨e, he, hews, hs⟩
  · rintro (⟨e, he, _, hs⟩ | hs)
    · exact ⟨e, he, hs⟩
    · unfold hasKey at hk
      rw [List.any_eq_true] at hk
      obtain ⟨e, he, hews⟩ := hk
      simp only [decide_eq_true_eq] at hews
      have hg := getSymbols_eq subs hkeys e he
      rw [hews] at hg
      rw [hg] at hs
      exact ⟨e, he, hs⟩

/-- Characterisation of the task-cancellation loop of `disconnect`: a task
survives the loop iff it was present before and every occurrence of it among
the dropped symbols still has a subscriber. -/
theorem foldl_eraseTasks_spec (P : String → Bool) :
    ∀ (syms tasks : List String), tasks.Nodup →
      (syms.foldl (fun ts sym => if P sym then ts else ts.erase sym)
          tasks).Nodup ∧
      (∀ t, t ∈ syms.foldl (fun ts sym => if P sym then ts else ts.erase sym)
          tasks ↔ (t ∈ tasks ∧ (t ∈ syms → P t = true))) := by
  intro syms
  induction syms with
  | nil =>
    intro tasks h
    exact ⟨h, fun t => by simp⟩
  | cons s ss ih =>
    intro tasks h
    simp only [List.foldl_cons]
    by_cases hP : P s = true
    · rw [if_pos hP]
      obtain ⟨hnd, hmem⟩ := ih tasks h
      refine ⟨hnd, fun t => ?_⟩
      rw [hmem t]
      constructor
      · rintro ⟨ht, himp⟩
        refine ⟨ht, fun hts => ?_⟩
        rcases List.mem_cons.mp hts with h' | h'
        · rw [h']
          exact hP
        · exact himp h'
      · rintro ⟨ht, himp⟩
        exact ⟨ht, fun hts => himp (List.mem_cons_of_mem _ hts)⟩
    · rw [if_neg hP]
      obtain ⟨hnd, hmem⟩ := ih (tasks.erase s) (h.erase s)
      refine ⟨hnd, fun t => ?_⟩
      rw [hmem t]
      by_cases hts : t = s
      · subst hts
        constructor
        · rintro ⟨ht, _⟩
          exact absurd ht h.not_mem_erase
        · rintro ⟨ht, himp⟩
          exact absurd (himp (List.mem_cons_self _ _)) hP
      · rw [List.mem_erase_of_ne hts]
        constructor
        · rintro ⟨ht, himp⟩
          refine ⟨ht, fun h' => ?_⟩
          rcases List.mem_cons.mp h' with h'' | h''
          · exact absurd h'' hts
          · exact himp h''
        · rintro ⟨ht, himp⟩
          exact ⟨ht, fun h' => himp (List.mem_cons_of_mem _ h')⟩

/-- Every hub operation preserves the reference-count invariant. -/
theorem hubStep_inv (s : HubState) (op : HubOp) (h : hubInv s) :
    hubInv (hubStep s op) := by
  obtain ⟨hkeys, htasks, hiff⟩ := h
  cases op with
  | connect ws =>
    simp only [hubStep]
    split
    · exact ⟨hkeys, htasks, hiff⟩
    · rename_i hnk
      refine ⟨?_, htasks, ?_⟩
      · rw [List.map_append]
        simp only [List.map_cons, List.map_nil]
        rw [List.nodup_append]
        refine ⟨hkeys, List.nodup_singleton _, ?_⟩
        intro x hx hy
        simp only [List.mem_singleton] at hy
        apply hnk
        unfold hasKey
        rw [List.any_eq_true]
        rw [List.mem_map] at hx
        obtain ⟨e, he, hfst⟩ := hx
        exact ⟨e, he, by simp [hfst, hy]⟩
      · intro sym
        rw [hiff sym]
        constructor
        · rintro ⟨e, he, hs⟩
          exact ⟨e, List.mem_append_left _ he, hs⟩
        · rintro ⟨e, he, hs⟩
          rcases List.mem_append.mp he with h' | h'
          · exact ⟨e, h', hs⟩
          · simp only [List.mem_singleton] at h'
            rw [h'] at hs
            simp at hs
  | subscribe ws symbol =>
    simp only [hubStep]
    split
    · rename_i hk
      split
      · exact ⟨hkeys, htasks, hiff⟩
      · rename_i hnotin
        refine ⟨?_, ?_, ?_⟩
        · rw [setSymbols_keys]
          exact hkeys
        · split
          · exact htasks
          · rename_i hnt
            rw [List.nodup_append]
            refine ⟨htasks, List.nodup_singleton _, ?_⟩
            intro x hx hy
            simp only [List.mem_singleton] at hy
            rw [hy] at hx
            exact hnt hx
        · intro sym
          rw [exists_setSymbols_iff s.subs ws hk _ sym]
          have hmemapp : sym ∈ getSymbols s.subs ws ++ [symbol] ↔
              sym ∈ getSymbols s.subs ws ∨ sym = symbol := by simp
          rw [hmemapp]
          have hTask : sym ∈ s.tasks ↔
              (∃ e ∈ s.subs, e.1 ≠ ws ∧ sym ∈ e.2) ∨
                sym ∈ getSymbols s.subs ws :=
            (hiff sym).trans (exists_subs_split s.subs hkeys ws hk sym)
          split
          · rename_i hst
            have himp : sym = symbol → sym ∈ s.tasks := by
              intro h'
              rw [h']
              exact hst
            constructor
            · intro hin
              rcases hTask.mp hin with h' | h'
              · exact Or.inl h'
              · exact Or.inr (Or.inl h')
            · rintro (h' | h' | h')
              · exact hTask.mpr (Or.inl h')
              · exact hTask.mpr (Or.inr h')
              · exact himp h'
          · rename_i hnt
            have happ : sym ∈ s.tasks ++ [symbol] ↔
                sym ∈ s.tasks ∨ sym = symbol := by simp
            rw [happ]
            constructor
            · rintro (h' | h')
              · rcases hTask.mp h' with h'' | h''
                · exact Or.inl h''
                · exact Or.inr (Or.inl h'')
              · exact Or.inr (Or.inr h')
            · rintro (h' | h' | h')
              · exact Or.inl (hTask.mpr (Or.inl h'))
              · exact Or.inl (hTask.mpr (Or.inr h'))
              · exact Or.inr h'
    · exact ⟨hkeys, htasks, hiff⟩
  | unsubscribe ws symbol =>
    simp only [hubStep]
    split
    · rename_i hk
      split
      · rename_i hmem
        refine ⟨?_, ?_, ?_⟩
        · rw [setSymbols_keys]
          exact hkeys
        · split
          · exact htasks
          · exact htasks.erase _
        · intro sym
          have hEx := exists_setSymbols_iff s.subs ws hk
            ((getSymbols s.subs ws).erase symbol) sym
          have hTask : sym ∈ s.tasks ↔
              (∃ e ∈ s.subs, e.1 ≠ ws ∧ sym ∈ e.2) ∨
                sym ∈ getSymbols s.subs ws :=
            (hiff sym).trans (exists_subs_split s.subs hkeys ws hk sym)
          split
          · rename_i hA
            by_cases hss : sym = symbol
            · subst hss
              refine iff_of_true ?_ (anySubscriber_iff _ _ |>.mp hA)
              exact hTask.mpr (Or.inr hmem)
            · rw [hEx, List.mem_erase_of_ne hss]
              exact hTask
          · rename_i hA
            by_cases hss : sym = symbol
            · subst hss
              refine iff_of_false htasks.not_mem_erase ?_
              intro hex
              exact hA ((anySubscriber_iff _ _).mpr hex)
            · rw [List.mem_erase_of_ne hss, hEx,
                List.mem_erase_of_ne hss]
              exact hTask
      · exact ⟨hkeys, htasks, hiff⟩
    · exact ⟨hkeys, htasks, hiff⟩
  | disconnect ws =>
    simp only [hubStep]
    split
    · rename_i hk
      have hkeys' : ((s.subs.filter (fun e => ¬ (e.1 = ws))).map
          Prod.fst).Nodup :=
        List.Nodup.sublist ((List.filter_sublist _).map Prod.fst) hkeys
      obtain ⟨hnd, hmem⟩ := foldl_eraseTasks_spec
        (fun sym => anySubscriber (s.subs.filter (fun e => ¬ (e.1 = ws))) sym)
        (getSymbols s.subs ws) s.tasks htasks
      refine ⟨hkeys', hnd, ?_⟩
      intro t
      rw [hmem t]
      constructor
      · rintro ⟨ht, himp⟩
        by_cases htin : t ∈ getSymbols s.subs ws
        · exact (anySubscriber_iff _ _).mp (himp htin)
        · obtain ⟨e, he, hs⟩ := (hiff t).mp ht
          have hne : ¬ (e.1 = ws) := by
            intro hc
            apply htin
            have hg := getSymbols_eq s.subs hkeys e he
            rw [hc] at hg
            rw [hg]
            exact hs
          refine ⟨e, ?_, hs⟩
          rw [List.mem_filter]
          exact ⟨he, by simpa using hne⟩
      · rintro ⟨e, he', hs⟩
        have he : e ∈ s.subs := (List.mem_filter.mp he').1
        refine ⟨(hiff t).mpr ⟨e, he, hs⟩, fun _ => ?_⟩
        exact (anySubscriber_iff _ _).mpr ⟨e, he', hs⟩
    · exact ⟨hkeys, htasks, hiff⟩

/-- C6: after any sequence of connect, subscribe, unsubscribe, and
disconnect operations, at most one broadcast task exists per symbol, and a
symbol owns a broadcast task exactly when at least one connected session is
subscribed to it — so the task is created on the first subscriber and cancelled
exactly when the last subscriber unsubscribes or disconnects. -/
theorem c6_broadcast_refcount (ops : List HubOp) :
    (hubRun ops).tasks.Nodup ∧
    ∀ sym : String, sym ∈ (hubRun ops).tasks ↔
      ∃ e ∈ (hubRun ops).subs, sym ∈ e.2 := by
  have hgen : ∀ (l : List HubOp) (s : HubState), hubInv s →
      hubInv (l.foldl hubStep s) := by
    intro l
    induction l with
    | nil => intro s hs; exact hs
    | cons op l ih =>
      intro s hs
      exact ih _ (hubStep_inv s op hs)
  have hinv : hubInv (hubRun ops) := by
    unfold hubRun
    refine hgen ops ⟨[], [], []⟩ ?_
    unfold hubInv
    refine ⟨by simp, by simp, ?_⟩
    intro sym
    simp
  exact ⟨hinv.2.1, hinv.2.2⟩

/-- Witness for C6: once the only subscriber of `"BTCUSDT"` unsubscribes,
the broadcast task is gone. -/
theorem c6_broadcast_refcount_witness :
    "BTCUSDT" ∉ (hubRun [HubOp.connect 1, HubOp.subscribe 1 "BTCUSDT",
      HubOp.unsubscribe 1 "BTCUSDT"]).tasks := by
  intro h
  have h2 := ((c6_broadcast_refcount [HubOp.connect 1,
    HubOp.subscribe 1 "BTCUSDT", HubOp.unsubscribe 1 "BTCUSDT"]).2
    "BTCUSDT").mp h
  revert h2
  decide

/-! ## WebSocket session loop (`handle_websocket`, Server.py lines 229-291)

The loop body first runs `json.loads(message)`; only `WebSocketDisconnect`
is caught, so a frame that is not valid JSON raises `json.JSONDecodeError`
and ends the loop.  A valid JSON frame missing `symbol` or `exchanges` gets
`{"error": "Missing symbol or exchanges"}` and `continue`.
-/

/-- One inbound WebSocket text frame: either not valid JSON, or a JSON
object with the optional `action` and `symbol` fields and the `exchanges`
list (`data.get("exchanges", [])`, absent modelled as `[]`). -/
inductive WsFrame
  | malformed
  | valid (action : Option String) (symbol : Option String)
      (exchanges : List String)
deriving DecidableEq

/-- The replies the loop can send for one frame. -/
inductive WsReply
  | errorMissing
  | subscribeSuccess (symbol : String)
  | subscribeFailure (symbol : String)
  | unsubscribeSuccess (symbol : String)
  | unsubscribeFailure (symbol : String)
deriving DecidableEq

/-- Handling of one frame by the loop body, over the session's own symbol
set: `none` models the uncaught `json.JSONDecodeError` ending the loop;
otherwise the updated symbol set and the reply, if any (`not symbol` is true
for a missing symbol and for `""`; `not exchanges` for the empty set; an
action that is neither `subscribe` nor `unsubscribe` draws no reply). -/
def handle_frame (subs : List String) :
    WsFrame → Option (List String × Option WsReply)
  | .malformed => none
  | .valid action symbol exchanges =>
    match symbol with
    | none => some (subs, some .errorMissing)
    | some s =>
      if s = "" ∨ exchanges = [] then some (subs, some .errorMissing)
      else if action = some "subscribe" then
        if s ∈ subs then some (subs, some (.subscribeFailure s))
        else some (subs ++ [s], some (.subscribeSuccess s))
      else if action = some "unsubscribe" then
        if s ∈ subs then some (subs.erase s, some (.unsubscribeSuccess s))
        else some (subs, some (.unsubscribeFailure s))
      else some (subs, none)

/-- The session loop over a finite inbound frame sequence: the replies sent
in order (`none` for a frame drawing no reply) and whether the loop is still
running afterwards. -/
def run_session (subs : List String) :
    List WsFrame → List (Option WsReply) × Bool
  | [] => ([], true)
  | f :: fs =>
    match handle_frame subs f with
    | none => ([], false)
    | some (subs', r) =>
      let rest := run_session subs' fs
      (r :: rest.1, rest.2)

/-- Counterexample to C7 as stated: a frame that is not valid JSON raises an
uncaught `json.JSONDecodeError`, terminating the session loop with no error
frame sent, and the following well-formed frame is never processed. -/
theorem c7_malformed_closes_session :
    (run_session [] [WsFrame.malformed,
        WsFrame.valid (some "subscribe") (some "BTCUSDT") ["Binance"]]).2
        = false ∧
      (run_session [] [WsFrame.malformed,
        WsFrame.valid (some "subscribe") (some "BTCUSDT") ["Binance"]]).1
        = [] := by
  decide

/-- C7 (amended): a frame that is valid JSON but missing the `symbol` or
`exchanges` fields draws an `error` reply and the session remains open,
continuing to process the subsequent frames; a frame that is not valid
JSON, however, terminates the session loop (`c7_malformed_closes_session`). -/
theorem c7_missing_fields_error_continue (subs : List String)
    (action : Option String) (symbol : Option String)
    (exchanges : List String) (fs : List WsFrame)
    (h : symbol = none ∨ symbol = some "" ∨ exchanges = []) :
    run_session subs (WsFrame.valid action symbol exchanges :: fs)
      = (some WsReply.errorMissing :: (run_session subs fs).1,
         (run_session subs fs).2) := by
  rcases h with h | h | h
  · subst h
    simp [run_session, handle_frame]
  · subst h
    simp [run_session, handle_frame]
  · subst h
    cases symbol with
    | none => simp [run_session, handle_frame]
    | some s => simp [run_session, handle_frame]

/-- Witness for the amended C7 at a concrete frame with a missing symbol. -/
theorem c7_missing_fields_witness :
    ((none : Option String) = none ∨ (none : Option String) = some ""
        ∨ (["Binance"] : List String) = []) ∧
      run_session [] [WsFrame.valid none none ["Binance"]]
        = ([some WsReply.errorMissing], true) :=
  ⟨Or.inl rfl, by
    have h := c7_missing_fields_error_continue [] none none ["Binance"] []
      (Or.inl rfl)
    simpa [run_session] using h⟩

/-! ## `ExchangeBinance.get_klines_data`
(Server_/Exchanges/ExchangeBinance.py lines 47-108)

The pagination loop: while `start_time < end_time`, request a page; a list
response appends the klines with `openTime ≤ end_time`, advances
`start_time` one interval past the page's last kline and sleeps 1 second;
an empty list breaks; a non-list response prints the error, sleeps 5
seconds, and loops again with `start_time` unchanged — requesting the same
page again.  Times are epoch milliseconds, the interval is in milliseconds.
-/

/-- One kline row `[openTime, open, high, low, close, volume, ...]`. -/
structure Kline where
  time : ℤ
  o : ℚ
  h : ℚ
  l : ℚ
  c : ℚ
  v : ℚ
deriving DecidableEq

/-- One REST response: malformed (non-list) or a page of klines. -/
inductive BinResp
  | malformed
  | page (data : List Kline)
deriving DecidableEq

/-- The pagination loop over a finite stream of upstream responses (the
model returns the accumulator when the stream is exhausted).  Returns the
accumulated klines and the trace of sleeps in seconds. -/
def get_klines_loop (intervalMs endTime : ℤ) :
    List BinResp → ℤ → List Kline → List Kline × List ℕ
  | [], _, acc => (acc, [])
  | r :: rs, start, acc =>
    if start < endTime then
      match r with
      | .malformed =>
        let rest := get_klines_loop intervalMs endTime rs start acc
        (rest.1, 5 :: rest.2)
      | .page [] => (acc, [])
      | .page (k :: ks) =>
        let newAcc := acc ++ (k :: ks).takeWhile (fun kl => kl.time ≤ endTime)
        let newStart := ((k :: ks).getLast (by simp)).time + intervalMs
        let rest := get_klines_loop intervalMs endTime rs newStart newAcc
        (rest.1, 1 :: rest.2)
    else (acc, [])

/-- Counterexample to C9 as stated: after two consecutive malformed pages no
failure is surfaced — the loop sleeps 5s after each and issues a third
request for the same page, which here succeeds and contributes its data. -/
theorem c9_single_retry_false :
    get_klines_loop 60000 100
        [BinResp.malformed, BinResp.malformed,
          BinResp.page [⟨50, 1, 1, 1, 1, 1⟩]] 0 []
      = ([⟨50, 1, 1, 1, 1, 1⟩], [5, 5, 1]) := by
  decide

/-- C9 (amended): on a malformed (non-list) response the adapter sleeps 5
seconds and retries the same page with unchanged state; consecutive
malformed responses each trigger another sleep-and-retry, without bound, and
no failure is ever surfaced to the caller. -/
theorem c9_malformed_retries_unbounded (intervalMs endTime start : ℤ)
    (rs : List BinResp) (acc : List Kline) (h : start < endTime) :
    get_klines_loop intervalMs endTime (BinResp.malformed :: rs) start acc
      = ((get_klines_loop intervalMs endTime rs start acc).1,
         5 :: (get_klines_loop intervalMs endTime rs start acc).2) := by
  simp [get_klines_loop, h]

/-- Witness for the amended C9. -/
theorem c9_malformed_retries_witness :
    (0 : ℤ) < 100 ∧
      get_klines_loop 60000 100 [BinResp.malformed] 0 [] = ([], [5]) :=
  ⟨by norm_num, by
    have h := c9_malformed_retries_unbounded 60000 100 0 [] [] (by norm_num)
    rw [h]
    rfl⟩

/-! ## `Database.get_orders`, `Database.get_orders_executions`
(DatabaseManager/Database.py lines 267-359) and the order endpoints
(Server.py lines 615-659) -/

/-- A row of the `twap_orders` table. -/
structure TwapRow where
  id : String
  user_id : ℕ
  symbol : String
  exchange : String
  side : String
  limit_price : ℚ
  quantity : ℚ
  duration : ℕ
  status : String
  created_at : String
  percent_exec : ℚ
  avg_exec_price : ℚ
  lots_count : ℕ
  total_exec : ℚ
deriving DecidableEq

/-- A row of the `twap_executions` table. -/
structure ExecRow where
  id : ℕ
  order_id : String
  symbol : String
  side : String
  quantity : ℚ
  price : ℚ
  exchange : String
  timestamp : String
deriving DecidableEq

/-- The relational store. -/
structure Db where
  orders : List TwapRow
  executions : List ExecRow
deriving DecidableEq

/-- An `HTTPException(status_code, detail)`. -/
structure HTTPError where
  status : ℕ
  detail : String
deriving DecidableEq

/-- Python truthiness of an optional string parameter (`None` and `""` are
falsy). -/
def truthyOpt : Option String → Bool
  | none => false
  | some s => s ≠ ""

/-- The query of `Database.get_orders`: the user's orders, narrowed by
`order_id` when that parameter is truthy. -/
def ordersQuery (db : Db) (user_id : ℕ) (order_id : Option String) :
    List TwapRow :=
  if truthyOpt order_id then
    (db.orders.filter (fun o => o.user_id = user_id)).filter
      (fun o => some o.id = order_id)
  else db.orders.filter (fun o => o.user_id = user_id)

/-- `Database.get_orders` (lines 267-306): the user's orders, optionally
narrowed to one `order_id`; 404 `"No orders found"` when nothing matches,
otherwise the matching rows (the source serialises each row to a dict with
the same fields). -/
def get_orders (db : Db) (user_id : ℕ) (order_id : Option String) :
    Except HTTPError (List TwapRow) :=
  if ordersQuery db user_id order_id = [] then
    .error ⟨404, "No orders found"⟩
  else .ok (ordersQuery db user_id order_id)

/-- The execution query of `get_orders_executions`: executions joined to an
order of this user, optionally narrowed by `order_id`, `symbol`, `side`. -/
def execQuery (db : Db) (user_id : ℕ) (order_id : String)
    (symbol side : Option String) : List ExecRow :=
  db.executions.filter (fun ex =>
    (db.orders.any (fun o => o.id = ex.order_id ∧ o.user_id = user_id)) ∧
    (order_id ≠ "" → ex.order_id = order_id) ∧
    (truthyOpt symbol = true → some ex.symbol = symbol) ∧
    (truthyOpt side = true → some ex.side = side))

/-- `Database.get_orders_executions` (lines 308-359): when a (truthy)
`order_id` is given, first require an order with that id belonging to the
user — the same 404 `"Order not found or unauthorized"` whether the id is
missing or owned by someone else — then return the filtered executions, 404
when none match. -/
def get_orders_executions (db : Db) (user_id : ℕ) (order_id : String)
    (symbol side : Option String) : Except HTTPError (List ExecRow) :=
  if order_id ≠ "" then
    match db.orders.find?
        (fun o => o.id = order_id ∧ o.user_id = user_id) with
    | none => .error ⟨404, "Order not found or unauthorized"⟩
    | some _ =>
      if execQuery db user_id order_id symbol side = [] then
        .error ⟨404, "No executions found matching the criteria"⟩
      else .ok (execQuery db user_id order_id symbol side)
  else
    if execQuery db user_id order_id symbol side = [] then
      .error ⟨404, "No executions found matching the criteria"⟩
    else .ok (execQuery db user_id order_id symbol side)

/-- `GET /orders/{order_id}` (`get_order_status`, Server.py lines 648-659):
resolve the bearer's user (403 when unknown), query the executions (a
raised `HTTPException` propagates), 404 on an empty result. -/
def get_order_status (db : Db) (users : List (String × ℕ))
    (username : String) (order_id : String) :
    Except HTTPError (List ExecRow) :=
  match users.find? (fun u => u.1 = username) with
  | some u =>
    match get_orders_executions db u.2 order_id none none with
    | .error e => .error e
    | .ok order_state =>
      if order_state = [] then .error ⟨404, "Order not found"⟩
      else .ok order_state
  | none => .error ⟨403, "Not authorized"⟩

/-- `GET /orders` (`list_all_orders`, Server.py lines 615-623). -/
def list_all_orders (db : Db) (users : List (String × ℕ))
    (username : String) (order_id : Option String) :
    Except HTTPError (List TwapRow) :=
  match users.find? (fun u => u.1 = username) with
  | some u => get_orders db u.2 order_id
  | none => .error ⟨403, "Not authorized"⟩

/-- C8: for two distinct owners X and Y, a query by X for the executions of
an order owned by Y returns 404 `"Order not found or unauthorized"` — never
403 — and the response is identical to querying an order id that exists
nowhere.  `hpk` is the primary-key constraint on `twap_orders.id`. -/
theorem c8_notfound_masks_ownership (db : Db) (users : List (String × ℕ))
    (nameX : String) (x y : ℕ) (o : TwapRow) (oid' : String)
    (hu : users.find? (fun u => u.1 = nameX) = some (nameX, x))
    (hpk : (db.orders.map TwapRow.id).Nodup)
    (hxy : x ≠ y) (ho : o ∈ db.orders) (howner : o.user_id = y)
    (hne : o.id ≠ "")
    (hmiss : ∀ o' ∈ db.orders, o'.id ≠ oid') (hne' : oid' ≠ "") :
    get_order_status db users nameX o.id
        = .error ⟨404, "Order not found or unauthorized"⟩ ∧
      get_order_status db users nameX oid'
        = .error ⟨404, "Order not found or unauthorized"⟩ := by
  have hfind1 : db.orders.find?
      (fun o' => o'.id = o.id ∧ o'.user_id = x) = none := by
    rw [List.find?_eq_none]
    intro o' ho' hc
    simp only [decide_eq_true_eq] at hc
    obtain ⟨hid, huser⟩ := hc
    have heq : o' = o := List.inj_on_of_nodup_map hpk ho' ho hid
    rw [heq] at huser
    exact hxy (huser.symm.trans howner)
  have hfind2 : db.orders.find?
      (fun o' => o'.id = oid' ∧ o'.user_id = x) = none := by
    rw [List.find?_eq_none]
    intro o' ho' hc
    simp only [decide_eq_true_eq] at hc
    exact hmiss o' ho' hc.1
  simp only [Bool.decide_and] at hfind1 hfind2
  constructor
  · simp [get_order_status, hu, get_orders_executions, hne, hfind1]
  · simp [get_order_status, hu, get_orders_executions, hne', hfind2]

/-- Witness for C8: alice (user 1) querying bob's order `"ord1"` and the
nonexistent id `"nope"` receives the same 404. -/
theorem c8_notfound_masks_ownership_witness :
    get_order_status
        ⟨[⟨"ord1", 2, "BTCUSDT", "Binance", "buy", 100, 1, 5, "completed",
           "t0", 0, 0, 0, 0⟩], []⟩
        [("alice", 1), ("bob", 2)] "alice"
        (TwapRow.id ⟨"ord1", 2, "BTCUSDT", "Binance", "buy", 100, 1, 5,
           "completed", "t0", 0, 0, 0, 0⟩)
        = .error ⟨404, "Order not found or unauthorized"⟩ ∧
      get_order_status
        ⟨[⟨"ord1", 2, "BTCUSDT", "Binance", "buy", 100, 1, 5, "completed",
           "t0", 0, 0, 0, 0⟩], []⟩
        [("alice", 1), ("bob", 2)] "alice" "nope"
        = .error ⟨404, "Order not found or unauthorized"⟩ :=
  c8_notfound_masks_ownership
    ⟨[⟨"ord1", 2, "BTCUSDT", "Binance", "buy", 100, 1, 5, "completed",
       "t0", 0, 0, 0, 0⟩], []⟩
    [("alice", 1), ("bob", 2)] "alice" 1 2
    ⟨"ord1", 2, "BTCUSDT", "Binance", "buy", 100, 1, 5, "completed",
     "t0", 0, 0, 0, 0⟩ "nope"
    (by decide) (by decide) (by decide) (by decide) (by decide) (by decide)
    (by decide) (by decide)

/-- C10: `GET /orders` answers 404 `"No orders found"` whenever the query
matches no order of the authenticated owner — in particular a user owning no
orders at all, or filtering on an id that matches none of their orders —
and a 200 response never carries an empty list. -/
theorem c10_no_orders_404 (db : Db) (users : List (String × ℕ))
    (username : String) (uid : ℕ) (order_id : Option String)
    (hu : users.find? (fun u => u.1 = username) = some (username, uid)) :
    ((∀ o ∈ db.orders, o.user_id ≠ uid) →
        list_all_orders db users username order_id
          = .error ⟨404, "No orders found"⟩) ∧
    (∀ oid : String, oid ≠ "" →
        (∀ o ∈ db.orders, o.user_id = uid → o.id ≠ oid) →
        list_all_orders db users username (some oid)
          = .error ⟨404, "No orders found"⟩) ∧
    (∀ r, list_all_orders db users username order_id = .ok r → r ≠ []) := by
  refine ⟨?_, ?_, ?_⟩
  · intro hnone
    have hq : db.orders.filter (fun o => o.user_id = uid) = [] := by
      rw [List.filter_eq_nil_iff]
      intro o ho
      simp only [decide_eq_true_eq]
      exact hnone o ho
    have hq2 : ordersQuery db uid order_id = [] := by
      unfold ordersQuery
      rw [hq]
      split
      · simp
      · rfl
    simp [list_all_orders, hu, get_orders, hq2]
  · intro oid hoid hnone
    have hq2 : ordersQuery db uid (some oid) = [] := by
      unfold ordersQuery
      have ht : truthyOpt (some oid) = true := by
        unfold truthyOpt
        simpa using hoid
      rw [if_pos ht, List.filter_eq_nil_iff]
      intro o ho
      have huser : o.user_id = uid := by
        have hmem := List.of_mem_filter ho
        simpa using hmem
      have hid := hnone o (List.mem_of_mem_filter ho) huser
      simp [hid]
    simp [list_all_orders, hu, get_orders, hq2]
  · intro r hr
    simp only [list_all_orders, hu] at hr
    unfold get_orders at hr
    split at hr
    · simp at hr
    · rename_i hne2
      have heq : ordersQuery db uid order_id = r := by
        injection hr
      rw [← heq]
      exact hne2

/-- Witness for C10: a user owning no orders receives 404. -/
theorem c10_no_orders_404_witness :
    list_all_orders ⟨[], []⟩ [("alice", 1)] "alice" none
      = .error ⟨404, "No orders found"⟩ :=
  (c10_no_orders_404 ⟨[], []⟩ [("alice", 1)] "alice" 1 none (by decide)).1
    (by simp)
